import Mathlib

/-!
Verification development for the gpt-shell retrieval-augmented context
subsystem (`cli_assistant_fs.py`) and conversation memory store
(`context_memory.py`).

Modelling conventions:
* Python text is modelled as `List Char` where character offsets matter
  (the chunker) and as `String` elsewhere.
* Python `int` is `Int` (or `Nat` where the source value is a length or
  count that is provably non-negative), Python `float` used for costs and
  scores is `ℚ`; the one function that takes a real square root
  (`_l2_normalize`) is modelled over `ℝ`.
* Environment-configurable constants (`RAG_CHUNK_SIZE`, `RAG_CHUNK_OVERLAP`,
  `EMBED_BATCH`, `RAG_TOP_K`, `RAG_MAX_CHUNK_CHARS`) are parameters of the
  model, matching `int(os.getenv(...))` in the source.
* SQLite tables are modelled as lists of rows; `INSERT` appends,
  `DELETE ... WHERE` filters, `UPDATE ... WHERE` maps.
-/

/-! ### Chunker: `_chunk_text` (cli_assistant_fs.py lines 550-563)

The Python source is a `while i < n` loop.  `chunkLoop` is the literal
translation, total by well-founded recursion on `n - i` (the loop makes
strictly positive progress: `i = max(i + size - overlap, i + 1) ≥ i + 1`).
`chunkLoopFuel` is the same loop bounded by an iteration budget; it reduces
by the kernel, and `chunkLoop_eq_fuel` shows a budget of `n - i` iterations
always suffices, which is the termination bound of the while loop. -/

/-- Loop body state transition for the window start:
`i = max(i + size - overlap, i + 1)` from the source. -/
def chunkAdvance (size overlap : Int) (i : Nat) : Nat :=
  (max ((i : Int) + size - overlap) ((i : Int) + 1)).toNat

theorem chunkAdvance_lt (size overlap : Int) (i : Nat) :
    i < chunkAdvance size overlap i := by
  unfold chunkAdvance
  have h1 : ((i : Int) + 1) ≤ max ((i : Int) + size - overlap) ((i : Int) + 1) :=
    le_max_right _ _
  omega

/-- The while loop of `_chunk_text`, translated literally:
`while i < n: j = min(n, i + size); append (i, j, s[i:j]); if j == n: break;
i = max(i + size - overlap, i + 1)`.  `size` is a `Nat` because the loop is
only entered after the `size <= 0` guard. -/
def chunkLoop (s : List Char) (size : Nat) (overlap : Int) (i : Nat) :
    List (Nat × Nat × List Char) :=
  if _h : i < s.length then
    let j := min s.length (i + size)
    let c := (s.drop i).take (j - i)
    if j = s.length then [(i, j, c)]
    else (i, j, c) :: chunkLoop s size overlap (chunkAdvance size overlap i)
  else []
termination_by s.length - i
decreasing_by
  have := chunkAdvance_lt size overlap i
  omega

/-- The same loop with an explicit iteration budget (kernel-reducible). -/
def chunkLoopFuel (fuel : Nat) (s : List Char) (size : Nat) (overlap : Int)
    (i : Nat) : List (Nat × Nat × List Char) :=
  match fuel with
  | 0 => []
  | fuel + 1 =>
    if i < s.length then
      let j := min s.length (i + size)
      let c := (s.drop i).take (j - i)
      if j = s.length then [(i, j, c)]
      else (i, j, c) :: chunkLoopFuel fuel s size overlap (chunkAdvance size overlap i)
    else []

theorem chunkLoop_eq_fuel (fuel : Nat) (s : List Char) (size : Nat)
    (overlap : Int) (i : Nat) (hfuel : s.length - i ≤ fuel) :
    chunkLoopFuel fuel s size overlap i = chunkLoop s size overlap i := by
  induction fuel generalizing i with
  | zero =>
    have hi : ¬ i < s.length := by omega
    rw [chunkLoop, chunkLoopFuel]
    simp [hi]
  | succ fuel ih =>
    rw [chunkLoop, chunkLoopFuel]
    by_cases hi : i < s.length
    · simp only [hi, dif_pos, if_pos]
      by_cases hj : min s.length (i + size) = s.length
      · simp [hj]
      · simp only [hj, if_neg, not_false_iff]
        have := chunkAdvance_lt size overlap i
        rw [ih _ (by omega)]
    · simp [hi]

/-- `_chunk_text(s, size, overlap)`: if `size <= 0` the whole text is one
chunk, otherwise run the window loop from `i = 0`. -/
def chunk_text (s : List Char) (size overlap : Int) :
    List (Nat × Nat × List Char) :=
  if size ≤ 0 then [(0, s.length, s)]
  else chunkLoop s size.toNat overlap 0

/-- Executable form of `chunk_text`: the loop with budget `length`. -/
def chunk_text_fuel (s : List Char) (size overlap : Int) :
    List (Nat × Nat × List Char) :=
  if size ≤ 0 then [(0, s.length, s)]
  else chunkLoopFuel s.length s size.toNat overlap 0

theorem chunk_text_eq_fuel (s : List Char) (size overlap : Int) :
    chunk_text s size overlap = chunk_text_fuel s size overlap := by
  unfold chunk_text chunk_text_fuel
  by_cases h : size ≤ 0
  · simp [h]
  · simp only [h, if_neg, not_false_iff]
    rw [chunkLoop_eq_fuel]
    omega

theorem chunkAdvance_eq (size : Nat) (overlap : Int) (i : Nat)
    (h : 1 ≤ (size : Int) - overlap) :
    chunkAdvance size overlap i = i + ((size : Int) - overlap).toNat := by
  unfold chunkAdvance
  omega

theorem chunkAdvance_le_add (size : Nat) (overlap : Int) (i : Nat)
    (hO : 0 ≤ overlap) (hs : 1 ≤ size) :
    chunkAdvance size overlap i ≤ i + size := by
  unfold chunkAdvance
  omega

theorem chunkLoopFuel_head (fuel : Nat) (s : List Char) (size : Nat)
    (overlap : Int) (i : Nat) (c : Nat × Nat × List Char)
    (h : (chunkLoopFuel fuel s size overlap i).head? = some c) : c.1 = i := by
  match fuel with
  | 0 => simp [chunkLoopFuel] at h
  | fuel + 1 =>
    rw [chunkLoopFuel] at h
    by_cases hi : i < s.length
    · simp only [hi, if_pos] at h
      by_cases hj : min s.length (i + size) = s.length
      · simp only [hj, if_pos, List.head?_cons, Option.some.injEq] at h
        rw [← h]
      · simp only [hj, if_neg, not_false_iff, List.head?_cons, Option.some.injEq] at h
        rw [← h]
    · simp [hi] at h

theorem chunkLoopFuel_shape (fuel : Nat) (s : List Char) (size : Nat)
    (overlap : Int) :
    ∀ i, ∀ c ∈ chunkLoopFuel fuel s size overlap i,
      i ≤ c.1 ∧ c.2.1 = min s.length (c.1 + size) ∧
      c.2.2 = (s.drop c.1).take (c.2.1 - c.1) := by
  induction fuel with
  | zero => intro i c hc; simp [chunkLoopFuel] at hc
  | succ fuel ih =>
    intro i c hc
    rw [chunkLoopFuel] at hc
    by_cases hi : i < s.length
    · simp only [hi, if_pos] at hc
      by_cases hj : min s.length (i + size) = s.length
      · simp only [hj, if_pos, List.mem_singleton] at hc
        subst hc
        exact ⟨le_refl _, hj.symm ▸ rfl, rfl⟩
      · simp only [hj, if_neg, not_false_iff, List.mem_cons] at hc
        rcases hc with hc | hc
        · subst hc
          exact ⟨le_refl _, rfl, rfl⟩
        · have := ih (chunkAdvance size overlap i) c hc
          have hadv := chunkAdvance_lt size overlap i
          exact ⟨by omega, this.2.1, this.2.2⟩
    · simp [hi] at hc

theorem chunkLoopFuel_chain (fuel : Nat) (s : List Char) (size : Nat)
    (overlap : Int) (h1 : 1 ≤ (size : Int) - overlap) :
    ∀ i, List.Chain' (fun a b => b.1 = a.1 + ((size : Int) - overlap).toNat)
      (chunkLoopFuel fuel s size overlap i) := by
  induction fuel with
  | zero => intro i; simp [chunkLoopFuel]
  | succ fuel ih =>
    intro i
    rw [chunkLoopFuel]
    by_cases hi : i < s.length
    · simp only [hi, if_pos]
      by_cases hj : min s.length (i + size) = s.length
      · simp [hj]
      · simp only [hj, if_neg, not_false_iff]
        refine List.chain'_cons'.mpr ⟨?_, ih _⟩
        intro b hb
        have := chunkLoopFuel_head fuel s size overlap _ b hb
        rw [this, chunkAdvance_eq size overlap i h1]
    · simp [hi]

theorem chunkLoopFuel_chain_lt (fuel : Nat) (s : List Char) (size : Nat)
    (overlap : Int) :
    ∀ i, List.Chain' (fun a b => a.1 < b.1)
      (chunkLoopFuel fuel s size overlap i) := by
  induction fuel with
  | zero => intro i; simp [chunkLoopFuel]
  | succ fuel ih =>
    intro i
    rw [chunkLoopFuel]
    by_cases hi : i < s.length
    · simp only [hi, if_pos]
      by_cases hj : min s.length (i + size) = s.length
      · simp [hj]
      · simp only [hj, if_neg, not_false_iff]
        refine List.chain'_cons'.mpr ⟨?_, ih _⟩
        intro b hb
        have := chunkLoopFuel_head fuel s size overlap _ b hb
        rw [this]
        exact chunkAdvance_lt size overlap i
    · simp [hi]

theorem chunkLoopFuel_cover (fuel : Nat) (s : List Char) (size : Nat)
    (overlap : Int) (hO : 0 ≤ overlap) (hs : 1 ≤ size) :
    ∀ i, s.length - i ≤ fuel → ∀ p, i ≤ p → p < s.length →
      ∃ c ∈ chunkLoopFuel fuel s size overlap i, c.1 ≤ p ∧ p < c.2.1 := by
  induction fuel with
  | zero => intro i hf p hip hp; omega
  | succ fuel ih =>
    intro i hf p hip hp
    have hi : i < s.length := by omega
    rw [chunkLoopFuel]
    simp only [hi, if_pos]
    by_cases hj : min s.length (i + size) = s.length
    · refine ⟨(i, min s.length (i + size),
          (s.drop i).take (min s.length (i + size) - i)), ?_, hip, ?_⟩
      · simp [hj]
      · simpa [hj] using hp
    · by_cases hpj : p < min s.length (i + size)
      · refine ⟨(i, min s.length (i + size),
            (s.drop i).take (min s.length (i + size) - i)), ?_, hip, ?_⟩
        · simp [hj]
        · simpa using hpj
      · have hadv1 := chunkAdvance_lt size overlap i
        have hadv2 := chunkAdvance_le_add size overlap i hO hs
        obtain ⟨c, hc, hc1, hc2⟩ :=
          ih (chunkAdvance size overlap i) (by omega) p (by omega) hp
        exact ⟨c, by simp [hj, hc], hc1, hc2⟩

theorem chunkLoopFuel_length (fuel : Nat) (s : List Char) (size : Nat)
    (overlap : Int) :
    ∀ i, (chunkLoopFuel fuel s size overlap i).length ≤ s.length - i := by
  induction fuel with
  | zero => intro i; simp [chunkLoopFuel]
  | succ fuel ih =>
    intro i
    rw [chunkLoopFuel]
    by_cases hi : i < s.length
    · simp only [hi, if_pos]
      by_cases hj : min s.length (i + size) = s.length
      · simp only [hj, if_pos, List.length_singleton]; omega
      · simp only [hj, if_neg, not_false_iff, List.length_cons]
        have := ih (chunkAdvance size overlap i)
        have := chunkAdvance_lt size overlap i
        omega
    · simp [hi]

/-- C6: for `0 <= O < S`, `_chunk_text` windows advance by exactly `S - O`
(adjacent starts satisfy `start_next = start + (S - O)`), every window's end
is clipped to `min (len T) (start + S)` and its text is the corresponding
slice, the windows cover `[0, len T)` with no gaps, chunking is
deterministic, `S <= 0` yields the single chunk `(0, len T, T)`, and
chunking "hello world" with `S = 5`, `O = 1` yields exactly the offset
sequence `(0,5), (4,9), (8,11)`. -/
theorem chunk_text_window_spec (T : List Char) (S O : Int)
    (hS : 0 < S) (hO : 0 ≤ O) (hOS : O < S) :
    List.Chain' (fun a b => b.1 = a.1 + (S - O).toNat) (chunk_text T S O) ∧
    (∀ c ∈ chunk_text T S O,
        c.2.1 = min T.length (c.1 + S.toNat) ∧
        c.2.2 = (T.drop c.1).take (c.2.1 - c.1)) ∧
    (∀ p, p < T.length → ∃ c ∈ chunk_text T S O, c.1 ≤ p ∧ p < c.2.1) ∧
    chunk_text T S O = chunk_text T S O ∧
    (∀ (U : List Char) (S' O' : Int), S' ≤ 0 →
        chunk_text U S' O' = [(0, U.length, U)]) ∧
    (chunk_text "hello world".toList 5 1).map (fun c => (c.1, c.2.1)) =
      [(0, 5), (4, 9), (8, 11)] := by
  have hfe : chunk_text T S O = chunkLoopFuel T.length T S.toNat O 0 := by
    rw [chunk_text_eq_fuel]
    unfold chunk_text_fuel
    simp [hS.not_le]
  have hSn : (S.toNat : Int) = S := Int.toNat_of_nonneg hS.le
  refine ⟨?_, ?_, ?_, rfl, ?_, ?_⟩
  · rw [hfe]
    have := chunkLoopFuel_chain T.length T S.toNat O (by omega) 0
    rwa [hSn] at this
  · rw [hfe]
    intro c hc
    exact (chunkLoopFuel_shape T.length T S.toNat O 0 c hc).2
  · rw [hfe]
    intro p hp
    exact chunkLoopFuel_cover T.length T S.toNat O hO (by omega) 0
      (by omega) p (Nat.zero_le p) hp
  · intro U S' O' h
    unfold chunk_text
    simp [h]
  · rw [chunk_text_eq_fuel]
    decide

/-- C6 witness: the theorem instantiated at "hello world", `S = 5`, `O = 1`,
with each hypothesis discharged, yields the concrete offset sequence. -/
theorem chunk_text_window_spec_witness :
    (chunk_text "hello world".toList 5 1).map (fun c => (c.1, c.2.1)) =
      [(0, 5), (4, 9), (8, 11)] :=
  (chunk_text_window_spec "hello world".toList 5 1 (by decide) (by decide)
    (by decide)).2.2.2.2.2

/-- C7: `_chunk_text` terminates on every text and all integer parameters
(including `overlap >= size`): the while loop completes within `len T`
iterations (`chunk_text` equals its fuel-bounded form with budget `len T`),
each iteration strictly advances the window start, the number of chunks is
at most `len T` whenever `0 < S` (the loop case), and at most
`max 1 (len T)` for all parameters. -/
theorem chunk_text_total (T : List Char) (S O : Int) :
    chunk_text T S O = chunk_text_fuel T S O ∧
    List.Chain' (fun a b => a.1 < b.1) (chunk_text T S O) ∧
    (0 < S → (chunk_text T S O).length ≤ T.length) ∧
    (chunk_text T S O).length ≤ max 1 T.length := by
  have hlen : 0 < S → (chunk_text T S O).length ≤ T.length := by
    intro hS
    have hfe : chunk_text T S O = chunkLoopFuel T.length T S.toNat O 0 := by
      rw [chunk_text_eq_fuel]
      unfold chunk_text_fuel
      simp [hS.not_le]
    rw [hfe]
    have := chunkLoopFuel_length T.length T S.toNat O 0
    omega
  refine ⟨chunk_text_eq_fuel T S O, ?_, hlen, ?_⟩
  · by_cases hS : S ≤ 0
    · unfold chunk_text
      simp [hS]
    · have hfe : chunk_text T S O = chunkLoopFuel T.length T S.toNat O 0 := by
        rw [chunk_text_eq_fuel]
        unfold chunk_text_fuel
        simp [hS]
      rw [hfe]
      exact chunkLoopFuel_chain_lt T.length T S.toNat O 0
  · by_cases hS : S ≤ 0
    · unfold chunk_text
      simp [hS]
    · have := hlen (by omega)
      omega

/-- C7 witness: at text "abc" with `size = 2`, `overlap = 5 >= size`, the
chunk count is bounded by the text length. -/
theorem chunk_text_total_witness :
    (chunk_text "abc".toList 2 5).length ≤ "abc".toList.length :=
  (chunk_text_total "abc".toList 2 5).2.2.1 (by decide)

/-! ### Vector helpers: `_l2_normalize` and `_dot`
(cli_assistant_fs.py lines 565-573)

`_l2_normalize` takes a real square root, so it is modelled over `ℝ`
(the idealization of the source's floats); `_dot` is pure field
arithmetic and is modelled executably over `ℚ`. -/

/-- Sum of squares `sum(x*x for x in v)` of `_l2_normalize`. -/
def l2NormSq (v : List ℝ) : ℝ := (v.map (fun x => x * x)).sum

/-- Euclidean norm `s = sum(x*x for x in v) ** 0.5` of `_l2_normalize`. -/
noncomputable def l2Norm (v : List ℝ) : ℝ := Real.sqrt (l2NormSq v)

/-- `_l2_normalize(v)`: return `v` when the norm is zero, else divide every
component by the norm. -/
noncomputable def l2_normalize (v : List ℝ) : List ℝ :=
  if l2Norm v = 0 then v else v.map (fun x => x / l2Norm v)

theorem l2NormSq_nonneg (v : List ℝ) : 0 ≤ l2NormSq v := by
  unfold l2NormSq
  induction v with
  | nil => simp
  | cons x xs ih =>
    simp only [List.map_cons, List.sum_cons]
    have := mul_self_nonneg x
    linarith

theorem l2NormSq_map_div (v : List ℝ) (s : ℝ) :
    l2NormSq (v.map (fun x => x / s)) = l2NormSq v / (s * s) := by
  unfold l2NormSq
  induction v with
  | nil => simp
  | cons x xs ih =>
    simp only [List.map_cons, List.sum_cons, List.map_map]
    simp only [List.map_map] at ih
    rw [ih]
    ring

/-- C9: `_l2_normalize` returns `v` unchanged when the Euclidean norm of `v`
is zero, and otherwise returns a vector of Euclidean norm exactly 1 (the
real-number idealization of "norm 1 within floating-point tolerance"). -/
theorem l2_normalize_spec (v : List ℝ) :
    (l2Norm v = 0 → l2_normalize v = v) ∧
    (l2Norm v ≠ 0 → l2Norm (l2_normalize v) = 1) := by
  constructor
  · intro h
    unfold l2_normalize
    simp [h]
  · intro h
    have hsq : l2NormSq v ≠ 0 := by
      intro hz
      apply h
      unfold l2Norm
      rw [hz, Real.sqrt_zero]
    have hnn := l2NormSq_nonneg v
    unfold l2_normalize
    rw [if_neg h]
    unfold l2Norm
    rw [l2NormSq_map_div]
    rw [Real.mul_self_sqrt hnn, div_self hsq, Real.sqrt_one]

/-- C9 witness: the zero vector `[0]` is returned unchanged, and `[3, 4]`
(norm 5) normalizes to a vector of norm 1. -/
theorem l2_normalize_spec_witness :
    l2_normalize [(0 : ℝ)] = [(0 : ℝ)] ∧ l2Norm (l2_normalize [(3 : ℝ), 4]) = 1 := by
  constructor
  · refine (l2_normalize_spec [(0 : ℝ)]).1 ?_
    unfold l2Norm l2NormSq
    simp
  · refine (l2_normalize_spec [(3 : ℝ), 4]).2 ?_
    unfold l2Norm
    rw [Real.sqrt_ne_zero']
    unfold l2NormSq
    norm_num

/-- `_dot(a, b)`: `m = min(len(a), len(b)); sum(a[i]*b[i] for i in range(m))`. -/
def dot (a b : List ℚ) : ℚ :=
  ((List.range (min a.length b.length)).map
    (fun i => a.getD i 0 * b.getD i 0)).sum

/-- C10: `_dot` is total on vectors of any two lengths and equals the sum of
coordinate products over the common prefix (`zip` truncates to the shorter
vector), so a dimension mismatch silently scores over the shared prefix;
in particular on `[1,2]` vs `[3,4,5]` it returns `1*3 + 2*4 = 11`. -/
theorem dot_spec (a b : List ℚ) :
    dot a b = ((a.zip b).map (fun p => p.1 * p.2)).sum ∧
    dot a b = dot (a.take (min a.length b.length)) (b.take (min a.length b.length)) ∧
    dot [(1 : ℚ), 2] [(3 : ℚ), 4, 5] = 11 := by
  have key : ∀ (a b : List ℚ), dot a b = ((a.zip b).map (fun p => p.1 * p.2)).sum := by
    intro a
    induction a with
    | nil => intro b; simp [dot]
    | cons x xs ih =>
      intro b
      cases b with
      | nil => simp [dot]
      | cons y ys =>
        have hrec : dot (x :: xs) (y :: ys) = x * y + dot xs ys := by
          unfold dot
          rw [List.length_cons, List.length_cons, Nat.succ_min_succ,
            List.range_succ_eq_map]
          simp only [List.map_cons, List.sum_cons, List.getD_cons_zero,
            List.map_map]
          congr 1
        rw [hrec, ih ys]
        simp
  refine ⟨key a b, ?_, ?_⟩
  · rw [key, key, ← List.zip_eq_zip_take_min]
  · rw [key]
    norm_num

/-! ### Context builder: `get_recent_context`
(context_memory.py lines 164-195)

The SQL fetch returns the project's turns most-recent-first; the model
takes that fetched list as input.  Each kept turn is prepended to the
context as `context.insert(0, user_msg); context.insert(1, assistant_msg)`,
and the loop breaks as soon as a turn would push the running token total
over `max_tokens`.  The tokenizer (`tiktoken`) is external and is a
function parameter `tok`. -/

inductive Role where
  | user
  | assistant
deriving DecidableEq

/-- The accumulation loop of `get_recent_context`. -/
def buildContext (tok : String → Nat) (maxTokens : Nat) :
    List (String × String) → Nat → List (Role × String) → List (Role × String)
  | [], _, context => context
  | (u, a) :: rest, total, context =>
    let turnTokens := tok (u ++ a)
    if maxTokens < total + turnTokens then context
    else buildContext tok maxTokens rest (total + turnTokens)
      ((Role.user, u) :: (Role.assistant, a) :: context)

/-- `get_recent_context(project, max_tokens)` after the turns for the
project have been fetched most-recent-first. -/
def get_recent_context (tok : String → Nat)
    (conversations : List (String × String)) (maxTokens : Nat) :
    List (Role × String) :=
  buildContext tok maxTokens conversations 0 []

/-- Turns the loop keeps, newest first (a prefix of the fetched list). -/
def keptTurns (tok : String → Nat) (maxTokens : Nat) :
    List (String × String) → Nat → List (String × String)
  | [], _ => []
  | (u, a) :: rest, total =>
    let turnTokens := tok (u ++ a)
    if maxTokens < total + turnTokens then []
    else (u, a) :: keptTurns tok maxTokens rest (total + turnTokens)

/-- Chronological rendering of a newest-first turn list: oldest turn first,
user message immediately before the assistant message of the same turn. -/
def renderTurns : List (String × String) → List (Role × String)
  | [] => []
  | (u, a) :: rest => renderTurns rest ++ [(Role.user, u), (Role.assistant, a)]

/-- Per-turn token estimate of a context laid out as user/assistant pairs,
matching the source's `len(encode(user_msg + assistant_msg))` per turn. -/
def pairTokens (tok : String → Nat) : List (Role × String) → Nat
  | (_, u) :: (_, a) :: rest => tok (u ++ a) + pairTokens tok rest
  | _ => 0

theorem buildContext_eq (tok : String → Nat) (maxTokens : Nat) :
    ∀ (convs : List (String × String)) (total : Nat) (acc : List (Role × String)),
      buildContext tok maxTokens convs total acc =
        renderTurns (keptTurns tok maxTokens convs total) ++ acc := by
  intro convs
  induction convs with
  | nil => intro total acc; simp [buildContext, keptTurns, renderTurns]
  | cons p rest ih =>
    intro total acc
    obtain ⟨u, a⟩ := p
    rw [buildContext, keptTurns]
    by_cases h : maxTokens < total + tok (u ++ a)
    · simp [h, renderTurns]
    · simp only [h, if_neg, not_false_iff, ih, renderTurns]
      rw [List.append_assoc]
      rfl

theorem buildContext_tokens (tok : String → Nat) (maxTokens : Nat) :
    ∀ (convs : List (String × String)) (total : Nat) (acc : List (Role × String)),
      pairTokens tok (buildContext tok maxTokens convs total acc) ≤
        pairTokens tok acc + (maxTokens - total) := by
  intro convs
  induction convs with
  | nil => intro total acc; simp [buildContext]
  | cons p rest ih =>
    intro total acc
    obtain ⟨u, a⟩ := p
    rw [buildContext]
    by_cases h : maxTokens < total + tok (u ++ a)
    · simp only [h, if_pos]
      omega
    · simp only [h, if_neg, not_false_iff]
      have := ih (total + tok (u ++ a)) ((Role.user, u) :: (Role.assistant, a) :: acc)
      have hacc : pairTokens tok ((Role.user, u) :: (Role.assistant, a) :: acc) =
          tok (u ++ a) + pairTokens tok acc := rfl
      omega

theorem keptTurns_prefix (tok : String → Nat) (maxTokens : Nat) :
    ∀ (convs : List (String × String)) (total : Nat),
      keptTurns tok maxTokens convs total <+: convs := by
  intro convs
  induction convs with
  | nil => intro total; simp [keptTurns]
  | cons p rest ih =>
    intro total
    obtain ⟨u, a⟩ := p
    rw [keptTurns]
    by_cases h : maxTokens < total + tok (u ++ a)
    · simp [h]
    · simp only [h, if_neg, not_false_iff]
      exact (List.prefix_cons_inj (u, a)).mpr (ih (total + tok (u ++ a)))

/-- C2: for every tokenizer, fetched history (most-recent-first) and budget
`M`, the context returned by `get_recent_context` has per-turn token
estimates summing to at most `M`; the result is the chronological rendering
of a kept prefix of the fetched turns (oldest kept turn first, user message
immediately before its assistant message); and a first turn that already
exceeds the budget is excluded (the result is empty). -/
theorem get_recent_context_spec (tok : String → Nat)
    (convs : List (String × String)) (M : Nat) :
    pairTokens tok (get_recent_context tok convs M) ≤ M ∧
    (∃ kept, kept <+: convs ∧
      get_recent_context tok convs M = renderTurns kept) ∧
    (∀ u a rest, M < tok (u ++ a) →
      get_recent_context tok ((u, a) :: rest) M = []) := by
  refine ⟨?_, ⟨keptTurns tok M convs 0, keptTurns_prefix tok M convs 0, ?_⟩, ?_⟩
  · have := buildContext_tokens tok M convs 0 []
    have h0 : pairTokens tok ([] : List (Role × String)) = 0 := rfl
    unfold get_recent_context
    omega
  · unfold get_recent_context
    rw [buildContext_eq]
    simp
  · intro u a rest h
    unfold get_recent_context
    rw [buildContext]
    simp [h]

/-- C2 witness: with a length tokenizer and budget 0, a single oversized
turn is excluded and the returned context is empty. -/
theorem get_recent_context_spec_witness :
    get_recent_context (fun s => s.length) [("x", "y")] 0 = [] :=
  (get_recent_context_spec (fun s => s.length) [("x", "y")] 0).2.2 "x" "y" []
    (by decide)

/-! ### Retriever: `_retrieve_context` (cli_assistant_fs.py lines 703-730)

`RAG_ENABLE` and `_have_index()` are booleans of the environment and the
filesystem, `_embed_batch` is the external embedding adapter, and the SQL
join result is a list of `(files.path, chunks.text, embedding)` rows,
where the embedding is `none` when `json.loads` of the stored JSON fails
(such a row is skipped by the `except: continue`).  `top_k` is a Python
`int`, so it is modelled as `Int`. -/

structure ChunkHit where
  score : ℚ
  path : String
  text : String
deriving DecidableEq

/-- `_retrieve_context(query, top_k)`. -/
def retrieve_context (ragEnable haveIdx : Bool)
    (embedBatch : List String → List (List ℚ))
    (rows : List (String × String × Option (List ℚ)))
    (maxChunkChars : Nat) (query : String) (topK : Int) : List ChunkHit :=
  if !ragEnable || !haveIdx then []
  else
    match embedBatch [query] with
    | [] => []
    | vec :: _ =>
      let scored := rows.filterMap
        (fun r => r.2.2.map (fun emb => (dot vec emb, r.1, r.2.1)))
      let sorted := scored.mergeSort (fun x y => decide (y.1 ≤ x.1))
      (sorted.take (max 1 topK).toNat).map
        (fun t => ⟨t.1, t.2.1, t.2.2.take maxChunkChars⟩)

/-- C3 counterexample: with `top_k = 0`, retrieval over a one-chunk index
returns 1 result, not at most 0 — `scored[:max(1, top_k)]` never takes
fewer than one element. -/
theorem retrieve_context_topk_zero :
    ¬ ((retrieve_context true true (fun _ => [[(1 : ℚ)]])
        [("a.txt", "text", some [(1 : ℚ)])] 900 "q" 0).length ≤ 0) := by
  simp [retrieve_context, List.mergeSort]

/-- C3 amended: `_retrieve_context` returns at most `max 1 K` results (hence
at most `K` when `K ≥ 1`), the results are sorted in descending order of
score, and the result is empty whenever retrieval is disabled or no index
database exists. -/
theorem retrieve_context_spec (ragEnable haveIdx : Bool)
    (embedBatch : List String → List (List ℚ))
    (rows : List (String × String × Option (List ℚ)))
    (maxChunkChars : Nat) (query : String) (K : Int) :
    (retrieve_context ragEnable haveIdx embedBatch rows maxChunkChars
        query K).length ≤ (max 1 K).toNat ∧
    (1 ≤ K →
      (retrieve_context ragEnable haveIdx embedBatch rows maxChunkChars
          query K).length ≤ K.toNat) ∧
    List.Pairwise (fun x y => y.score ≤ x.score)
      (retrieve_context ragEnable haveIdx embedBatch rows maxChunkChars
        query K) ∧
    (ragEnable = false ∨ haveIdx = false →
      retrieve_context ragEnable haveIdx embedBatch rows maxChunkChars
        query K = []) := by
  have hlen : (retrieve_context ragEnable haveIdx embedBatch rows
      maxChunkChars query K).length ≤ (max 1 K).toNat := by
    unfold retrieve_context
    by_cases hflag : (!ragEnable || !haveIdx) = true
    · simp [hflag]
    · simp only [hflag, Bool.false_eq_true, if_neg, not_false_iff]
      cases hembed : embedBatch [query] with
      | nil => simp
      | cons vec tl =>
        simp only [List.length_map]
        exact le_trans (List.length_take_le _ _) (le_refl _)
  refine ⟨hlen, ?_, ?_, ?_⟩
  · intro hK
    have : (max 1 K).toNat = K.toNat := by omega
    omega
  · unfold retrieve_context
    by_cases hflag : (!ragEnable || !haveIdx) = true
    · simp [hflag]
    · simp only [hflag, Bool.false_eq_true, if_neg, not_false_iff]
      cases hembed : embedBatch [query] with
      | nil => simp
      | cons vec tl =>
        simp only []
        rw [List.pairwise_map]
        refine List.Pairwise.sublist (List.take_sublist _ _) ?_
        have hsorted := @List.sorted_mergeSort (ℚ × String × String)
          (fun x y => decide (y.1 ≤ x.1))
          (fun a b c hab hbc => by
            simp only [decide_eq_true_eq] at *
            exact le_trans hbc hab)
          (fun a b => by
            simp only [Bool.or_eq_true, decide_eq_true_eq]
            exact le_total b.1 a.1)
          ((rows.filterMap
            (fun r => r.2.2.map (fun emb => (dot vec emb, r.1, r.2.1)))))
        refine List.Pairwise.imp ?_ hsorted
        intro a b h
        simpa using h
  · intro hdis
    unfold retrieve_context
    rcases hdis with h | h <;> simp [h]

/-- C3 amended witness: at `K = 1` on a one-chunk index the result has at
most one element. -/
theorem retrieve_context_spec_witness :
    (retrieve_context true true (fun _ => [[(1 : ℚ)]])
        [("a.txt", "text", some [(1 : ℚ)])] 900 "q" 1).length ≤ (1 : Int).toNat :=
  (retrieve_context_spec true true (fun _ => [[(1 : ℚ)]])
      [("a.txt", "text", some [(1 : ℚ)])] 900 "q" 1).2.1 (by decide)

/-! ### Conversation store and compaction (context_memory.py)

Timestamps are ISO-8601 strings in the source and SQLite compares them
lexicographically; for well-formed timestamps in one timezone that order
is chronological, so timestamps are modelled as `ℚ` measured in days:
`datetime.now()` is the parameter `now`, `timedelta(hours=1) = 1/24`,
`timedelta(days=1) = 1`, `timedelta(weeks=1) = 7`.  The tokenizer and the
pure text-analysis helpers `_generate_summary` / `_extract_topics`, and the
`write_file` path extraction from a stored `tool_calls` JSON string, are
opaque text functions bundled in `MemEnv` (no claim depends on their
output).  Tables are lists of rows; `INSERT` appends, `UPDATE`/`DELETE`
map/filter. -/

structure ConvRow where
  session_id : String
  timestamp : ℚ
  project_path : String
  user_message : String
  assistant_message : String
  tool_calls : Option String
  tokens_used : Int
  cost : ℚ
deriving DecidableEq

structure SummaryRow where
  project_path : String
  period : String
  summary : String
  key_topics : List String
  important_decisions : List String
  created_files : List String
  modified_files : List String
  tokens_saved : Int
deriving DecidableEq

structure SessionRow where
  session_id : String
  project_path : String
  started_at : ℚ
  ended_at : Option ℚ
  total_turns : Int
  total_tokens : Int
  total_cost : ℚ
deriving DecidableEq

structure MemDB where
  conversations : List ConvRow
  context_summaries : List SummaryRow
  sessions : List SessionRow
deriving DecidableEq

structure ContextSummary where
  period : String
  summary : String
  key_topics : List String
  important_decisions : List String
  created_files : List String
  modified_files : List String
  tokens_saved : Int
deriving DecidableEq

structure MemEnv where
  now : ℚ
  tok : String → Nat
  genSummary : String → String
  extractTopics : String → List String
  writeFilePaths : String → List String

/-- `save_conversation_turn(turn)`: one `INSERT INTO conversations`. -/
def save_conversation_turn (turn : ConvRow) (db : MemDB) : MemDB :=
  { db with conversations := db.conversations ++ [turn] }

/-- `end_session(session_id)`: compute `COUNT(*), SUM(tokens_used),
SUM(cost)` over the session's turns (`SUM` of no rows is NULL, coalesced to
0 by `or 0`, which is the sum of the empty list here) and update the
session row. -/
def end_session (env : MemEnv) (sid : String) (db : MemDB) : MemDB :=
  let turns := db.conversations.filter (fun c => c.session_id == sid)
  { db with sessions := db.sessions.map (fun s =>
      if s.session_id == sid then
        { s with ended_at := some env.now,
                 total_turns := (turns.length : Int),
                 total_tokens := (turns.map (fun c => c.tokens_used)).sum,
                 total_cost := (turns.map (fun c => c.cost)).sum }
      else s) }

/-- `create_summary(project_path, period)`: select the project's turns with
`timestamp > since` (ascending), where the lookback `since` is one hour,
one day or one week before now — any other period label, including
"archived", falls to the `else` branch of one day.  When no turns match,
an explicit "No recent activity" summary with zero saved tokens results;
otherwise the concatenated text is summarized and topic-extracted, the
`write_file` paths are collected from recorded tool calls, and
`tokens_saved` is floored at zero. -/
def create_summary (env : MemEnv) (db : MemDB) (project_path period : String) :
    ContextSummary :=
  let since : ℚ :=
    if period = "last_hour" then env.now - 1/24
    else if period = "last_day" then env.now - 1
    else if period = "last_week" then env.now - 7
    else env.now - 1
  let conversations := (db.conversations.filter
      (fun c => c.project_path == project_path && decide (since < c.timestamp))).mergeSort
      (fun a b => decide (a.timestamp ≤ b.timestamp))
  if conversations = [] then
    ⟨period, "No recent activity", [], [], [], [], 0⟩
  else
    let all_text := conversations.foldl (fun acc c =>
      acc ++ "User: " ++ c.user_message ++ "\nAssistant: " ++
        c.assistant_message ++ "\n\n") ""
    let created_files := conversations.foldl (fun acc c =>
      match c.tool_calls with
      | some tj => acc ++ env.writeFilePaths tj
      | none => acc) []
    let summary := env.genSummary all_text
    let tokens_saved : Int := (env.tok all_text : Int) - (env.tok summary : Int)
    ⟨period, summary, env.extractTopics all_text, [], created_files.dedup, [],
      max 0 tokens_saved⟩

/-- `save_summary(summary, project_path)`: one `INSERT INTO
context_summaries`. -/
def save_summary (s : ContextSummary) (project_path : String) (db : MemDB) :
    MemDB :=
  { db with context_summaries := db.context_summaries ++
      [⟨project_path, s.period, s.summary, s.key_topics, s.important_decisions,
        s.created_files, s.modified_files, s.tokens_saved⟩] }

/-- Body of the per-project loop of `cleanup_old_conversations`: create and
save an archived-period summary for project `p` unless one already exists. -/
def archiveStep (env : MemEnv) (d : MemDB) (p : String) : MemDB :=
  let existing := (d.context_summaries.filter
      (fun s => s.project_path == p && s.period == "archived")).length
  if existing = 0 then save_summary (create_summary env d p "archived") p d
  else d

/-- First phase of `cleanup_old_conversations`: for every distinct project
that has turns older than the cutoff (`SELECT DISTINCT project_path`),
run `archiveStep`.  No conversation row is touched. -/
def cleanupSummarize (env : MemEnv) (cutoff : ℚ) (db : MemDB) : MemDB :=
  let old_projects := ((db.conversations.filter
      (fun c => decide (c.timestamp < cutoff))).map
      (fun c => c.project_path)).dedup
  old_projects.foldl (archiveStep env) db

/-- `cleanup_old_conversations(days_to_keep)`: summarize-then-delete; the
returned count is the `DELETE ... WHERE timestamp < cutoff` rowcount. -/
def cleanup_old_conversations (env : MemEnv) (days_to_keep : Int)
    (db : MemDB) : MemDB × Nat :=
  let cutoff : ℚ := env.now - days_to_keep
  let db1 := cleanupSummarize env cutoff db
  let deleted := (db1.conversations.filter
      (fun c => decide (c.timestamp < cutoff))).length
  let remaining := db1.conversations.filter
      (fun c => !decide (c.timestamp < cutoff))
  ({ db1 with conversations := remaining }, deleted)

theorem end_session_aggregates (env : MemEnv) (sid : String) (db : MemDB) :
    ∀ s ∈ (end_session env sid db).sessions, s.session_id = sid →
      s.total_turns =
        ((db.conversations.filter (fun c => c.session_id == sid)).length : Int) ∧
      s.total_tokens =
        ((db.conversations.filter (fun c => c.session_id == sid)).map
          (fun c => c.tokens_used)).sum ∧
      s.total_cost =
        ((db.conversations.filter (fun c => c.session_id == sid)).map
          (fun c => c.cost)).sum ∧
      s.ended_at = some env.now := by
  intro s hs hsid
  unfold end_session at hs
  simp only [List.mem_map] at hs
  obtain ⟨s0, hs0, hfs⟩ := hs
  by_cases h : (s0.session_id == sid) = true
  · rw [if_pos h] at hfs
    subst hfs
    exact ⟨rfl, rfl, rfl, rfl⟩
  · rw [if_neg h] at hfs
    subst hfs
    exact absurd hsid (by simpa using h)

/-- C8: `end_session` sets a session's aggregates to the count and sums
computed over all stored conversation turns with that session id; in
particular two sequential `save_conversation_turn` calls with one session
id followed by `end_session` leave the session row with `total_turns = 2`
and `total_tokens` the sum of the two turns' token counts. -/
theorem end_session_spec (env : MemEnv) (sid : String) (db : MemDB) :
    (∀ s ∈ (end_session env sid db).sessions, s.session_id = sid →
      s.total_turns =
        ((db.conversations.filter (fun c => c.session_id == sid)).length : Int) ∧
      s.total_tokens =
        ((db.conversations.filter (fun c => c.session_id == sid)).map
          (fun c => c.tokens_used)).sum ∧
      s.total_cost =
        ((db.conversations.filter (fun c => c.session_id == sid)).map
          (fun c => c.cost)).sum) ∧
    (∀ t1 t2 : ConvRow, t1.session_id = sid → t2.session_id = sid →
      db.conversations.filter (fun c => c.session_id == sid) = [] →
      ∀ s ∈ (end_session env sid (save_conversation_turn t2
          (save_conversation_turn t1 db))).sessions, s.session_id = sid →
        s.total_turns = 2 ∧
        s.total_tokens = t1.tokens_used + t2.tokens_used) := by
  constructor
  · intro s hs hsid
    have := end_session_aggregates env sid db s hs hsid
    exact ⟨this.1, this.2.1, this.2.2.1⟩
  · intro t1 t2 ht1 ht2 hnone s hs hsid
    have hagg := end_session_aggregates env sid
      (save_conversation_turn t2 (save_conversation_turn t1 db)) s hs hsid
    have hconvs : (save_conversation_turn t2
        (save_conversation_turn t1 db)).conversations =
        db.conversations ++ [t1] ++ [t2] := by
      simp [save_conversation_turn]
    rw [hconvs] at hagg
    rw [List.filter_append, List.filter_append, hnone] at hagg
    have hft1 : [t1].filter (fun c => c.session_id == sid) = [t1] := by
      simp [List.filter, ht1]
    have hft2 : [t2].filter (fun c => c.session_id == sid) = [t2] := by
      simp [List.filter, ht2]
    rw [hft1, hft2] at hagg
    refine ⟨?_, ?_⟩
    · rw [hagg.1]
      rfl
    · rw [hagg.2.1]
      simp

/-- C8 witness: starting from one open session and no turns, saving two
turns with 10 and 5 tokens and ending the session yields a stored session
row with `total_turns = 2` and `total_tokens = 15`. -/
theorem end_session_spec_witness :
    (⟨"s1", "p", 0, some 100, 2, 15, 0⟩ : SessionRow).total_turns = 2 ∧
    (⟨"s1", "p", 0, some 100, 2, 15, 0⟩ : SessionRow).total_tokens = 10 + 5 :=
  (end_session_spec ⟨100, fun _ => 0, fun _ => "", fun _ => [], fun _ => []⟩
      "s1" ⟨[], [], [⟨"s1", "p", 0, none, 0, 0, 0⟩]⟩).2
    ⟨"s1", 1, "p", "u1", "a1", none, 10, 0⟩
    ⟨"s1", 2, "p", "u2", "a2", none, 5, 0⟩
    rfl rfl rfl
    ⟨"s1", "p", 0, some 100, 2, 15, 0⟩
    (by norm_num [end_session, save_conversation_turn, List.filter])
    rfl

theorem archiveStep_conversations (env : MemEnv) (d : MemDB) (p : String) :
    (archiveStep env d p).conversations = d.conversations := by
  by_cases h : (d.context_summaries.filter
      (fun s => s.project_path == p && s.period == "archived")).length = 0
  · simp [archiveStep, save_summary, h]
  · simp [archiveStep, h]

theorem foldl_archiveStep_conversations (env : MemEnv) :
    ∀ (ps : List String) (d : MemDB),
      (ps.foldl (archiveStep env) d).conversations = d.conversations := by
  intro ps
  induction ps with
  | nil => intro d; rfl
  | cons q rest ih =>
    intro d
    rw [List.foldl_cons, ih, archiveStep_conversations]

theorem archiveStep_mem (env : MemEnv) (d : MemDB) (p : String)
    (s : SummaryRow) (hs : s ∈ d.context_summaries) :
    s ∈ (archiveStep env d p).context_summaries := by
  by_cases h : (d.context_summaries.filter
      (fun s => s.project_path == p && s.period == "archived")).length = 0
  · simp only [archiveStep, save_summary, h, if_pos]
    exact List.mem_append_left _ hs
  · simp only [archiveStep, h, if_neg, not_false_iff]
    exact hs

theorem foldl_archiveStep_mem (env : MemEnv) :
    ∀ (ps : List String) (d : MemDB) (s : SummaryRow),
      s ∈ d.context_summaries →
      s ∈ (ps.foldl (archiveStep env) d).context_summaries := by
  intro ps
  induction ps with
  | nil => intro d s hs; exact hs
  | cons q rest ih =>
    intro d s hs
    rw [List.foldl_cons]
    exact ih _ s (archiveStep_mem env d q s hs)

theorem create_summary_period (env : MemEnv) (db : MemDB)
    (project_path period : String) :
    (create_summary env db project_path period).period = period := by
  simp only [create_summary]
  repeat' split
  all_goals rfl

theorem archiveStep_exists (env : MemEnv) (d : MemDB) (p : String) :
    ∃ s ∈ (archiveStep env d p).context_summaries,
      s.project_path = p ∧ s.period = "archived" := by
  unfold archiveStep
  by_cases h : (d.context_summaries.filter
      (fun s => s.project_path == p && s.period == "archived")).length = 0
  · rw [if_pos h]
    refine ⟨⟨p, (create_summary env d p "archived").period,
      (create_summary env d p "archived").summary,
      (create_summary env d p "archived").key_topics,
      (create_summary env d p "archived").important_decisions,
      (create_summary env d p "archived").created_files,
      (create_summary env d p "archived").modified_files,
      (create_summary env d p "archived").tokens_saved⟩, ?_, rfl,
      create_summary_period env d p "archived"⟩
    unfold save_summary
    exact List.mem_append_right _ (List.mem_singleton.mpr rfl)
  · rw [if_neg h]
    have hne : (d.context_summaries.filter
        (fun s => s.project_path == p && s.period == "archived")) ≠ [] := by
      intro hnil
      exact h (by rw [hnil]; rfl)
    obtain ⟨s, hs⟩ := List.exists_mem_of_ne_nil _ hne
    have := List.mem_filter.mp hs
    refine ⟨s, this.1, ?_, ?_⟩
    · have hb := this.2
      simp only [Bool.and_eq_true, beq_iff_eq] at hb
      exact hb.1
    · have hb := this.2
      simp only [Bool.and_eq_true, beq_iff_eq] at hb
      exact hb.2

theorem foldl_archiveStep_exists (env : MemEnv) :
    ∀ (ps : List String) (d : MemDB) (p : String), p ∈ ps →
      ∃ s ∈ (ps.foldl (archiveStep env) d).context_summaries,
        s.project_path = p ∧ s.period = "archived" := by
  intro ps
  induction ps with
  | nil => intro d p hp; exact absurd hp (List.not_mem_nil p)
  | cons q rest ih =>
    intro d p hp
    rw [List.foldl_cons]
    rcases List.mem_cons.mp hp with rfl | hp
    · obtain ⟨s, hs, hsp, hsper⟩ := archiveStep_exists env d p
      exact ⟨s, foldl_archiveStep_mem env rest _ s hs, hsp, hsper⟩
    · exact ih _ p hp

/-- C1: `cleanup_old_conversations(retention_days)` first ensures every
project holding turns older than `now - retention_days` has an
archived-period summary (while every conversation row is still present —
no deletion has happened in that phase), then deletes exactly the turns
with timestamp before the cutoff (newer turns remain) and returns the
number of deleted rows. -/
theorem cleanup_old_conversations_spec (env : MemEnv) (days : Int) (db : MemDB) :
    (cleanupSummarize env (env.now - days) db).conversations =
      db.conversations ∧
    (∀ p, (∃ c ∈ db.conversations, c.project_path = p ∧
        c.timestamp < env.now - days) →
      ∃ s ∈ (cleanupSummarize env (env.now - days) db).context_summaries,
        s.project_path = p ∧ s.period = "archived") ∧
    (∀ p, (∃ c ∈ db.conversations, c.project_path = p ∧
        c.timestamp < env.now - days) →
      ∃ s ∈ (cleanup_old_conversations env days db).1.context_summaries,
        s.project_path = p ∧ s.period = "archived") ∧
    (cleanup_old_conversations env days db).1.conversations =
      db.conversations.filter
        (fun c => !decide (c.timestamp < env.now - days)) ∧
    (cleanup_old_conversations env days db).2 =
      (db.conversations.filter
        (fun c => decide (c.timestamp < env.now - days))).length := by
  have hconv : (cleanupSummarize env (env.now - days) db).conversations =
      db.conversations := by
    simp only [cleanupSummarize]
    exact foldl_archiveStep_conversations env _ db
  have hsum : ∀ p, (∃ c ∈ db.conversations, c.project_path = p ∧
      c.timestamp < env.now - days) →
      ∃ s ∈ (cleanupSummarize env (env.now - days) db).context_summaries,
        s.project_path = p ∧ s.period = "archived" := by
    intro p ⟨c, hc, hcp, hct⟩
    simp only [cleanupSummarize]
    refine foldl_archiveStep_exists env _ db p ?_
    rw [List.mem_dedup]
    exact List.mem_map.mpr ⟨c, List.mem_filter.mpr ⟨hc, by simpa using hct⟩, hcp⟩
  have hfst : (cleanup_old_conversations env days db).1.context_summaries =
      (cleanupSummarize env (env.now - days) db).context_summaries := rfl
  have hfc : (cleanup_old_conversations env days db).1.conversations =
      (cleanupSummarize env (env.now - days) db).conversations.filter
        (fun c => !decide (c.timestamp < env.now - days)) := rfl
  have hcnt : (cleanup_old_conversations env days db).2 =
      ((cleanupSummarize env (env.now - days) db).conversations.filter
        (fun c => decide (c.timestamp < env.now - days))).length := rfl
  refine ⟨hconv, hsum, ?_, ?_, ?_⟩
  · intro p hp
    rw [hfst]
    exact hsum p hp
  · rw [hfc, hconv]
  · rw [hcnt, hconv]

/-- C1 witness: with `now = 100` (days), a project with one turn 40 days
old (timestamp 60) and one 5 days old (timestamp 95), after
`cleanup_old_conversations(retention_days = 30)` an archived-period
summary exists, only the 5-day-old turn remains, and the return value
is 1. -/
theorem cleanup_old_conversations_spec_witness :
    (∃ s ∈ (cleanup_old_conversations
        ⟨100, fun _ => 0, fun _ => "", fun _ => [], fun _ => []⟩ 30
        ⟨[⟨"s", 60, "p", "u1", "a1", none, 0, 0⟩,
          ⟨"s", 95, "p", "u2", "a2", none, 0, 0⟩], [], []⟩).1.context_summaries,
      s.project_path = "p" ∧ s.period = "archived") ∧
    (cleanup_old_conversations
        ⟨100, fun _ => 0, fun _ => "", fun _ => [], fun _ => []⟩ 30
        ⟨[⟨"s", 60, "p", "u1", "a1", none, 0, 0⟩,
          ⟨"s", 95, "p", "u2", "a2", none, 0, 0⟩], [], []⟩).1.conversations =
      [⟨"s", 95, "p", "u2", "a2", none, 0, 0⟩] ∧
    (cleanup_old_conversations
        ⟨100, fun _ => 0, fun _ => "", fun _ => [], fun _ => []⟩ 30
        ⟨[⟨"s", 60, "p", "u1", "a1", none, 0, 0⟩,
          ⟨"s", 95, "p", "u2", "a2", none, 0, 0⟩], [], []⟩).2 = 1 := by
  refine ⟨(cleanup_old_conversations_spec _ 30 _).2.2.1 "p"
      ⟨⟨"s", 60, "p", "u1", "a1", none, 0, 0⟩, by simp, rfl, by norm_num⟩,
    ?_, ?_⟩
  · rw [(cleanup_old_conversations_spec _ 30 _).2.2.2.1]
    norm_num [List.filter]
  · rw [(cleanup_old_conversations_spec _ 30 _).2.2.2.2]
    norm_num [List.filter]

/-! ### Vector index rebuild: `run_init_index`
(cli_assistant_fs.py lines 588-698)

The index database has `files(id, path UNIQUE, mtime, size, sha256)` and
`chunks(file_id, ord, start, end, text, embedding)`; the `end` column is
the field `stop` (`end` is a keyword) and the JSON-serialized embedding is
held as the vector itself.  Row ids (INTEGER PRIMARY KEY) come from a
`nextId` counter.  A candidate file on disk is `(path, st.st_mtime,
st.st_size, content)`; decoding is the identity because content is
modelled as text.  `_sha256_bytes` is the opaque parameter `sha`,
`_embed_batch` the opaque parameter `ebf` (one normalized vector per
input, or `[]` when the embedding call fails), and `EMBED_BATCH`,
`CHUNK_SIZE`, `CHUNK_OVERLAP` are the parameters `batchSize`,
`chunkSize`, `chunkOverlap`. -/

structure FileRow where
  id : Nat
  path : String
  mtime : Int
  size : Nat
  sha : String
deriving DecidableEq

structure ChunkRow where
  file_id : Nat
  ord : Nat
  start : Nat
  stop : Nat
  text : List Char
  embedding : List ℚ
deriving DecidableEq

structure IndexDB where
  files : List FileRow
  chunks : List ChunkRow
  nextId : Nat
deriving DecidableEq

structure FsFile where
  path : String
  mtime : Int
  size : Nat
  content : List Char
deriving DecidableEq

/-- `_file_row(conn, path)`: the stored row for a path (path is UNIQUE). -/
def file_row (db : IndexDB) (path : String) : Option FileRow :=
  db.files.find? (fun r => r.path == path)

/-- `_upsert_file`: `INSERT ... ON CONFLICT(path) DO UPDATE SET mtime, size,
sha256`, then `SELECT id WHERE path`; returns the updated database and the
row id. -/
def upsert_file (db : IndexDB) (path : String) (mtime : Int) (size : Nat)
    (sha : String) : IndexDB × Nat :=
  match db.files.find? (fun r => r.path == path) with
  | some r =>
    let updated := db.files.map (fun r2 =>
      if r2.path == path then
        { r2 with mtime := mtime, size := size, sha := sha }
      else r2)
    ({ db with files := updated }, r.id)
  | none =>
    let inserted := db.files ++ [⟨db.nextId, path, mtime, size, sha⟩]
    ({ db with files := inserted, nextId := db.nextId + 1 }, db.nextId)

/-- `_delete_chunks_for_file`: `DELETE FROM chunks WHERE file_id = ?`. -/
def delete_chunks_for_file (db : IndexDB) (fid : Nat) : IndexDB :=
  { db with chunks := db.chunks.filter (fun c => c.file_id != fid) }

/-- The rows built by `_insert_chunks` from
`enumerate(zip(chs, embs))`. -/
def chunkRowsFor (fid : Nat) (chs : List (Nat × Nat × List Char))
    (embs : List (List ℚ)) : List ChunkRow :=
  (chs.zip embs).enum.map (fun ke =>
    ⟨fid, ke.1, ke.2.1.1, ke.2.1.2.1, ke.2.1.2.2, ke.2.2⟩)

/-- `_insert_chunks` (after its `assert len(chs) == len(embs)` holds). -/
def insert_chunks (db : IndexDB) (fid : Nat)
    (chs : List (Nat × Nat × List Char)) (embs : List (List ℚ)) : IndexDB :=
  { db with chunks := db.chunks ++ chunkRowsFor fid chs embs }

/-- The embedding batch loop of `run_init_index`: texts are appended to a
batch; once the batch reaches `batchSize` it is embedded — on failure
(`_embed_batch` returned `[]`) the loop `continue`s WITHOUT clearing the
batch (the source bug), on success `zip(map_idx, embeds_batch)` appends one
vector per batch entry (truncating to the shorter side) and the batch is
cleared; a leftover batch is flushed after the loop. -/
def embedAccum (ebf : List (List Char) → List (List ℚ)) (batchSize : Nat) :
    List (List Char) → List (List Char) → List (List ℚ) → List (List ℚ)
  | [], batch, embeds =>
    if batch.isEmpty then embeds
    else
      let eb := ebf batch
      if eb.isEmpty then embeds else embeds ++ eb.take batch.length
  | c :: rest, batch, embeds =>
    let batch2 := batch ++ [c]
    if batchSize ≤ batch2.length then
      let eb := ebf batch2
      if eb.isEmpty then embedAccum ebf batchSize rest batch2 embeds
      else embedAccum ebf batchSize rest [] (embeds ++ eb.take batch2.length)
    else embedAccum ebf batchSize rest batch2 embeds

/-- All embeddings gathered for a file's chunk texts. -/
def gather_embeds (ebf : List (List Char) → List (List ℚ)) (batchSize : Nat)
    (texts : List (List Char)) : List (List ℚ) :=
  embedAccum ebf batchSize texts [] []

/-- The staleness check of `run_init_index`: `need = False` exactly when a
stored row exists and mtime, size and hash all match. -/
def fingerprint_ok (sha : List Char → String) (db : IndexDB) (f : FsFile) :
    Bool :=
  match db.files.find? (fun r => r.path == f.path) with
  | some r => decide (f.mtime = r.mtime) && decide (f.size = r.size) &&
      decide (r.sha = sha f.content)
  | none => false

/-- The per-file body of `run_init_index`: skip when the fingerprint
matches; chunk; embed in batches; skip when nothing was embedded; then the
per-file transaction `BEGIN; upsert; delete old chunks; insert new chunks;
COMMIT`, rolled back (state unchanged) when `_insert_chunks`' assertion
`len(chs) == len(embs)` fails — the only fallible step in the body.
Returns the database and the (files, chunks) counter increments. -/
def process_file (sha : List Char → String)
    (ebf : List (List Char) → List (List ℚ)) (batchSize : Nat)
    (chunkSize chunkOverlap : Int) (db : IndexDB) (f : FsFile) :
    IndexDB × Nat × Nat :=
  if fingerprint_ok sha db f then (db, 0, 0)
  else
    let chs := chunk_text f.content chunkSize chunkOverlap
    if chs.isEmpty then (db, 0, 0)
    else
      let embeds := gather_embeds ebf batchSize (chs.map (fun c => c.2.2))
      if embeds.isEmpty then (db, 0, 0)
      else if embeds.length = chs.length then
        let dbFid := upsert_file db f.path f.mtime f.size (sha f.content)
        let db2 := delete_chunks_for_file dbFid.1 dbFid.2
        (insert_chunks db2 dbFid.2 chs embeds, 1, chs.length)
      else (db, 0, 0)

/-- `run_init_index()` over the enumerated candidate files, accumulating
`indexed_files` and `indexed_chunks`. -/
def runIndexLoop (sha : List Char → String)
    (ebf : List (List Char) → List (List ℚ)) (batchSize : Nat)
    (chunkSize chunkOverlap : Int) :
    List FsFile → IndexDB × Nat × Nat → IndexDB × Nat × Nat
  | [], acc => acc
  | f :: rest, acc =>
    let r := process_file sha ebf batchSize chunkSize chunkOverlap acc.1 f
    runIndexLoop sha ebf batchSize chunkSize chunkOverlap rest
      (r.1, acc.2.1 + r.2.1, acc.2.2 + r.2.2)

def run_init_index (sha : List Char → String)
    (ebf : List (List Char) → List (List ℚ)) (batchSize : Nat)
    (chunkSize chunkOverlap : Int) (db : IndexDB) (files : List FsFile) :
    IndexDB × Nat × Nat :=
  runIndexLoop sha ebf batchSize chunkSize chunkOverlap files (db, 0, 0)

theorem upsert_file_find (db : IndexDB) (p : String) (m : Int) (sz : Nat)
    (sh : String) :
    ∃ r, (upsert_file db p m sz sh).1.files.find? (fun r0 => r0.path == p) =
        some r ∧ r.mtime = m ∧ r.size = sz ∧ r.sha = sh := by
  unfold upsert_file
  cases hfind : db.files.find? (fun r0 => r0.path == p) with
  | none =>
    simp only [List.find?_append, hfind, Option.none_or]
    refine ⟨⟨db.nextId, p, m, sz, sh⟩, ?_, rfl, rfl, rfl⟩
    simp [List.find?_cons]
  | some r =>
    have hpathg : (fun r2 : FileRow => ((if r2.path == p then
        { r2 with mtime := m, size := sz, sha := sh } else r2)).path == p) =
        (fun r2 : FileRow => r2.path == p) := by
      funext r2
      by_cases h : (r2.path == p) = true
      · simp [h]
      · simp [h]
    simp only [List.find?_map, Function.comp_def, hpathg, hfind, Option.map_some]
    have hr : (r.path == p) = true :=
      @List.find?_some FileRow (fun r0 => r0.path == p) r db.files hfind
    exact ⟨_, rfl, by simp [hr], by simp [hr], by simp [hr]⟩

theorem upsert_file_frame (db : IndexDB) (p : String) (m : Int) (sz : Nat)
    (sh : String) (q : String) (hq : q ≠ p) :
    (upsert_file db p m sz sh).1.files.find? (fun r0 => r0.path == q) =
      db.files.find? (fun r0 => r0.path == q) := by
  unfold upsert_file
  cases hfind : db.files.find? (fun r0 => r0.path == p) with
  | none =>
    simp only [List.find?_append]
    have hnew : List.find? (fun r0 : FileRow => r0.path == q)
        [⟨db.nextId, p, m, sz, sh⟩] = none := by
      simp [List.find?_cons, Ne.symm hq]
    rw [hnew, Option.or_none]
  | some r =>
    have hpathg : (fun r2 : FileRow => ((if r2.path == p then
        { r2 with mtime := m, size := sz, sha := sh } else r2)).path == q) =
        (fun r2 : FileRow => r2.path == q) := by
      funext r2
      by_cases h : (r2.path == p) = true
      · simp [h]
      · simp [h]
    simp only [List.find?_map, Function.comp_def, hpathg]
    cases hfq : db.files.find? (fun r0 => r0.path == q) with
    | none => simp
    | some r' =>
      have hr' : (r'.path == q) = true :=
        @List.find?_some FileRow (fun r0 => r0.path == q) r' db.files hfq
      have hne : ¬ ((r'.path == p) = true) := by
        simp only [beq_iff_eq] at hr' ⊢
        rw [hr']
        exact hq
      simp only [beq_iff_eq] at hne
      simp [hne]

/-- Derived predicate: the condition under which the per-file body of
`run_init_index` reaches its transaction and commits — chunks nonempty,
some embeddings gathered, and one embedding per chunk.  It depends only on
the file and the embedding adapter, never on the database. -/
def indexOutcome (ebf : List (List Char) → List (List ℚ)) (batchSize : Nat)
    (chunkSize chunkOverlap : Int) (f : FsFile) : Bool :=
  let chs := chunk_text f.content chunkSize chunkOverlap
  let embeds := gather_embeds ebf batchSize (chs.map (fun c => c.2.2))
  !chs.isEmpty && !embeds.isEmpty && decide (embeds.length = chs.length)

theorem process_file_skip (sha : List Char → String)
    (ebf : List (List Char) → List (List ℚ)) (batchSize : Nat)
    (chunkSize chunkOverlap : Int) (db : IndexDB) (f : FsFile)
    (h : fingerprint_ok sha db f = true) :
    process_file sha ebf batchSize chunkSize chunkOverlap db f = (db, 0, 0) := by
  unfold process_file
  rw [if_pos h]

theorem process_file_noCommit (sha : List Char → String)
    (ebf : List (List Char) → List (List ℚ)) (batchSize : Nat)
    (chunkSize chunkOverlap : Int) (db : IndexDB) (f : FsFile)
    (h : indexOutcome ebf batchSize chunkSize chunkOverlap f = false) :
    process_file sha ebf batchSize chunkSize chunkOverlap db f = (db, 0, 0) := by
  by_cases h1 : fingerprint_ok sha db f = true
  · exact process_file_skip sha ebf batchSize chunkSize chunkOverlap db f h1
  · simp only [indexOutcome, Bool.and_eq_false_imp, Bool.not_eq_eq_eq_not,
      Bool.not_false, Bool.and_eq_true, Bool.not_eq_true', decide_eq_false_iff_not] at h
    simp only [process_file, h1, Bool.false_eq_true, if_neg, not_false_iff]
    by_cases h2 : (chunk_text f.content chunkSize chunkOverlap).isEmpty = true
    · simp [h2]
    · by_cases h3 : (gather_embeds ebf batchSize
          ((chunk_text f.content chunkSize chunkOverlap).map
            (fun c => c.2.2))).isEmpty = true
      · simp [h2, h3]
      · have h4 := h ⟨by simpa using h2, by simpa using h3⟩
        simp [h2, h3, h4]

theorem process_file_commit (sha : List Char → String)
    (ebf : List (List Char) → List (List ℚ)) (batchSize : Nat)
    (chunkSize chunkOverlap : Int) (db : IndexDB) (f : FsFile)
    (h1 : fingerprint_ok sha db f = false)
    (h2 : chunk_text f.content chunkSize chunkOverlap ≠ [])
    (h3 : gather_embeds ebf batchSize
        ((chunk_text f.content chunkSize chunkOverlap).map
          (fun c => c.2.2)) ≠ [])
    (h4 : (gather_embeds ebf batchSize
        ((chunk_text f.content chunkSize chunkOverlap).map
          (fun c => c.2.2))).length =
        (chunk_text f.content chunkSize chunkOverlap).length) :
    process_file sha ebf batchSize chunkSize chunkOverlap db f =
      (insert_chunks
        (delete_chunks_for_file
          (upsert_file db f.path f.mtime f.size (sha f.content)).1
          (upsert_file db f.path f.mtime f.size (sha f.content)).2)
        (upsert_file db f.path f.mtime f.size (sha f.content)).2
        (chunk_text f.content chunkSize chunkOverlap)
        (gather_embeds ebf batchSize
          ((chunk_text f.content chunkSize chunkOverlap).map
            (fun c => c.2.2))),
       1, (chunk_text f.content chunkSize chunkOverlap).length) := by
  have h2' : (chunk_text f.content chunkSize chunkOverlap).isEmpty = false := by
    simpa [List.isEmpty_iff] using h2
  have h3' : (gather_embeds ebf batchSize
      ((chunk_text f.content chunkSize chunkOverlap).map
        (fun c => c.2.2))).isEmpty = false := by
    simpa [List.isEmpty_iff] using h3
  simp [process_file, h1, h2', h3', h4]

theorem fingerprint_ok_congr (sha : List Char → String) (db db' : IndexDB)
    (f : FsFile)
    (h : db'.files.find? (fun r => r.path == f.path) =
      db.files.find? (fun r => r.path == f.path)) :
    fingerprint_ok sha db' f = fingerprint_ok sha db f := by
  unfold fingerprint_ok
  rw [h]

theorem process_file_files_cases (sha : List Char → String)
    (ebf : List (List Char) → List (List ℚ)) (batchSize : Nat)
    (chunkSize chunkOverlap : Int) (db : IndexDB) (f : FsFile) :
    (process_file sha ebf batchSize chunkSize chunkOverlap db f).1.files =
      db.files ∨
    (process_file sha ebf batchSize chunkSize chunkOverlap db f).1.files =
      (upsert_file db f.path f.mtime f.size (sha f.content)).1.files := by
  simp only [process_file]
  repeat' split
  all_goals first | exact Or.inl rfl | exact Or.inr rfl

theorem process_file_frame (sha : List Char → String)
    (ebf : List (List Char) → List (List ℚ)) (batchSize : Nat)
    (chunkSize chunkOverlap : Int) (db : IndexDB) (f : FsFile) (q : String)
    (hq : q ≠ f.path) :
    (process_file sha ebf batchSize chunkSize chunkOverlap db f).1.files.find?
        (fun r => r.path == q) =
      db.files.find? (fun r => r.path == q) := by
  rcases process_file_files_cases sha ebf batchSize chunkSize chunkOverlap db f
    with h | h
  · rw [h]
  · rw [h]
    exact upsert_file_frame db f.path f.mtime f.size (sha f.content) q hq

theorem process_file_post (sha : List Char → String)
    (ebf : List (List Char) → List (List ℚ)) (batchSize : Nat)
    (chunkSize chunkOverlap : Int) (db : IndexDB) (f : FsFile)
    (houtcome : indexOutcome ebf batchSize chunkSize chunkOverlap f = true) :
    fingerprint_ok sha
      (process_file sha ebf batchSize chunkSize chunkOverlap db f).1 f = true := by
  simp only [indexOutcome, Bool.and_eq_true, Bool.not_eq_true',
    List.isEmpty_eq_false, decide_eq_true_eq] at houtcome
  obtain ⟨⟨h2, h3⟩, h4⟩ := houtcome
  by_cases h1 : fingerprint_ok sha db f = true
  · rw [process_file_skip sha ebf batchSize chunkSize chunkOverlap db f h1]
    exact h1
  · have h1' : fingerprint_ok sha db f = false := by
      simpa using h1
    rw [process_file_commit sha ebf batchSize chunkSize chunkOverlap db f
      h1' h2 h3 h4]
    obtain ⟨r, hfind, hm, hs, hh⟩ :=
      upsert_file_find db f.path f.mtime f.size (sha f.content)
    have hfiles : (insert_chunks
        (delete_chunks_for_file
          (upsert_file db f.path f.mtime f.size (sha f.content)).1
          (upsert_file db f.path f.mtime f.size (sha f.content)).2)
        (upsert_file db f.path f.mtime f.size (sha f.content)).2
        (chunk_text f.content chunkSize chunkOverlap)
        (gather_embeds ebf batchSize
          ((chunk_text f.content chunkSize chunkOverlap).map
            (fun c => c.2.2)))).files =
        (upsert_file db f.path f.mtime f.size (sha f.content)).1.files := rfl
    unfold fingerprint_ok
    rw [hfiles, hfind]
    simp [hm, hs, hh]

theorem runIndexLoop_frame (sha : List Char → String)
    (ebf : List (List Char) → List (List ℚ)) (batchSize : Nat)
    (chunkSize chunkOverlap : Int) :
    ∀ (files : List FsFile) (acc : IndexDB × Nat × Nat) (q : String),
      (∀ g ∈ files, q ≠ g.path) →
      (runIndexLoop sha ebf batchSize chunkSize chunkOverlap files
        acc).1.files.find? (fun r => r.path == q) =
        acc.1.files.find? (fun r => r.path == q) := by
  intro files
  induction files with
  | nil => intro acc q hq; rfl
  | cons g rest ih =>
    intro acc q hq
    rw [runIndexLoop]
    rw [ih _ q (fun g' hg' => hq g' (List.mem_cons_of_mem g hg'))]
    exact process_file_frame sha ebf batchSize chunkSize chunkOverlap acc.1 g q
      (hq g (List.mem_cons_self g rest))

theorem runIndexLoop_post (sha : List Char → String)
    (ebf : List (List Char) → List (List ℚ)) (batchSize : Nat)
    (chunkSize chunkOverlap : Int) :
    ∀ (files : List FsFile) (acc : IndexDB × Nat × Nat),
      (files.map (fun f => f.path)).Nodup →
      ∀ f ∈ files, indexOutcome ebf batchSize chunkSize chunkOverlap f = true →
      fingerprint_ok sha
        (runIndexLoop sha ebf batchSize chunkSize chunkOverlap files acc).1
        f = true := by
  intro files
  induction files with
  | nil => intro acc hnd f hf; exact absurd hf (List.not_mem_nil f)
  | cons g rest ih =>
    intro acc hnd f hf houtcome
    simp only [List.map_cons, List.nodup_cons, List.mem_map] at hnd
    rcases List.mem_cons.mp hf with rfl | hf
    · simp only [runIndexLoop]
      have hpost := process_file_post sha ebf batchSize chunkSize chunkOverlap
        acc.1 f houtcome
      have hpaths : ∀ g' ∈ rest, f.path ≠ g'.path := by
        intro g' hg' heq
        exact hnd.1 ⟨g', hg', heq.symm⟩
      have hframe := runIndexLoop_frame sha ebf batchSize chunkSize chunkOverlap
        rest
        ((process_file sha ebf batchSize chunkSize chunkOverlap acc.1 f).1,
          acc.2.1 + (process_file sha ebf batchSize chunkSize chunkOverlap
            acc.1 f).2.1,
          acc.2.2 + (process_file sha ebf batchSize chunkSize chunkOverlap
            acc.1 f).2.2)
        f.path hpaths
      rw [fingerprint_ok_congr sha _ _ f hframe]
      exact hpost
    · exact ih _ hnd.2 f hf houtcome

theorem runIndexLoop_noop (sha : List Char → String)
    (ebf : List (List Char) → List (List ℚ)) (batchSize : Nat)
    (chunkSize chunkOverlap : Int) :
    ∀ (files : List FsFile) (db : IndexDB) (a b : Nat),
      (∀ f ∈ files, indexOutcome ebf batchSize chunkSize chunkOverlap f = false ∨
        fingerprint_ok sha db f = true) →
      runIndexLoop sha ebf batchSize chunkSize chunkOverlap files (db, a, b) =
        (db, a, b) := by
  intro files
  induction files with
  | nil => intro db a b hall; rfl
  | cons g rest ih =>
    intro db a b hall
    have hg : process_file sha ebf batchSize chunkSize chunkOverlap db g =
        (db, 0, 0) := by
      rcases hall g (List.mem_cons_self g rest) with h | h
      · exact process_file_noCommit sha ebf batchSize chunkSize chunkOverlap
          db g h
      · exact process_file_skip sha ebf batchSize chunkSize chunkOverlap db g h
    simp only [runIndexLoop, hg]
    exact ih db a b (fun f hf => hall f (List.mem_cons_of_mem g hf))

/-- C4: a file is re-chunked and re-embedded only if one of (mtime, size,
hash) differs from its stored fingerprint record — if the stored row
matches, the per-file body is a complete no-op — and re-running
`run_init_index` immediately after a run, with no file changed, indexes
zero files and zero chunks and leaves the database untouched. -/
theorem run_init_index_idempotent (sha : List Char → String)
    (ebf : List (List Char) → List (List ℚ)) (batchSize : Nat)
    (chunkSize chunkOverlap : Int) (db : IndexDB) (files : List FsFile) :
    (∀ (db' : IndexDB) (f : FsFile),
      (∃ r, file_row db' f.path = some r ∧ f.mtime = r.mtime ∧
        f.size = r.size ∧ r.sha = sha f.content) →
      process_file sha ebf batchSize chunkSize chunkOverlap db' f =
        (db', 0, 0)) ∧
    ((files.map (fun f => f.path)).Nodup →
      run_init_index sha ebf batchSize chunkSize chunkOverlap
        (run_init_index sha ebf batchSize chunkSize chunkOverlap db files).1
        files =
        ((run_init_index sha ebf batchSize chunkSize chunkOverlap
          db files).1, 0, 0)) := by
  have hmatch : ∀ (db' : IndexDB) (f : FsFile),
      (∃ r, file_row db' f.path = some r ∧ f.mtime = r.mtime ∧
        f.size = r.size ∧ r.sha = sha f.content) →
      fingerprint_ok sha db' f = true := by
    intro db' f ⟨r, hfind, hm, hs, hh⟩
    unfold fingerprint_ok
    unfold file_row at hfind
    rw [hfind]
    simp [hm, hs, hh]
  constructor
  · intro db' f hex
    exact process_file_skip sha ebf batchSize chunkSize chunkOverlap db' f
      (hmatch db' f hex)
  · intro hnodup
    have hall : ∀ f ∈ files,
        indexOutcome ebf batchSize chunkSize chunkOverlap f = false ∨
        fingerprint_ok sha
          (run_init_index sha ebf batchSize chunkSize chunkOverlap
            db files).1 f = true := by
      intro f hf
      by_cases ho : indexOutcome ebf batchSize chunkSize chunkOverlap f = true
      · exact Or.inr (runIndexLoop_post sha ebf batchSize chunkSize chunkOverlap
          files (db, 0, 0) hnodup f hf ho)
      · exact Or.inl (by simpa using ho)
    exact runIndexLoop_noop sha ebf batchSize chunkSize chunkOverlap files
      (run_init_index sha ebf batchSize chunkSize chunkOverlap db files).1
      0 0 hall

/-- C4 witness: one candidate file, fresh database, total embedder: the
second rebuild reports zero files and zero chunks. -/
theorem run_init_index_idempotent_witness :
    run_init_index (fun _ => "h") (fun ts => ts.map (fun _ => [(1 : ℚ)])) 96 2 0
      (run_init_index (fun _ => "h") (fun ts => ts.map (fun _ => [(1 : ℚ)]))
        96 2 0 ⟨[], [], 0⟩ [⟨"a.txt", 5, 2, ['a', 'b']⟩]).1
      [⟨"a.txt", 5, 2, ['a', 'b']⟩] =
      ((run_init_index (fun _ => "h")
        (fun ts => ts.map (fun _ => [(1 : ℚ)])) 96 2 0
        ⟨[], [], 0⟩ [⟨"a.txt", 5, 2, ['a', 'b']⟩]).1, 0, 0) :=
  (run_init_index_idempotent (fun _ => "h")
    (fun ts => ts.map (fun _ => [(1 : ℚ)])) 96 2 0 ⟨[], [], 0⟩
    [⟨"a.txt", 5, 2, ['a', 'b']⟩]).2 (by decide)

theorem upsert_file_chunks (db : IndexDB) (p : String) (m : Int) (sz : Nat)
    (sh : String) :
    (upsert_file db p m sz sh).1.chunks = db.chunks := by
  unfold upsert_file
  cases db.files.find? (fun r => r.path == p) <;> rfl

/-- C5: the per-file transaction of `run_init_index` is atomic.  If the
gathered embeddings do not line up one-per-chunk (an embedding failure left
fewer vectors than chunks), the `_insert_chunks` assertion fires inside the
transaction and it is rolled back: the database — the file's previous
fingerprint and chunk set included — is unchanged and nothing is counted.
On a successful reindex the file's chunk rows are exactly the rows built
from the freshly computed chunking of the new content (no old chunk row for
the file remains), the stored fingerprint matches the new file, and the
(files, chunks) counters advance by (1, number of chunks). -/
theorem process_file_atomic (sha : List Char → String)
    (ebf : List (List Char) → List (List ℚ)) (batchSize : Nat)
    (chunkSize chunkOverlap : Int) (db : IndexDB) (f : FsFile) :
    ((gather_embeds ebf batchSize
        ((chunk_text f.content chunkSize chunkOverlap).map
          (fun c => c.2.2))).length ≠
        (chunk_text f.content chunkSize chunkOverlap).length →
      process_file sha ebf batchSize chunkSize chunkOverlap db f =
        (db, 0, 0)) ∧
    (fingerprint_ok sha db f = false →
     chunk_text f.content chunkSize chunkOverlap ≠ [] →
     gather_embeds ebf batchSize
        ((chunk_text f.content chunkSize chunkOverlap).map
          (fun c => c.2.2)) ≠ [] →
     (gather_embeds ebf batchSize
        ((chunk_text f.content chunkSize chunkOverlap).map
          (fun c => c.2.2))).length =
        (chunk_text f.content chunkSize chunkOverlap).length →
      (process_file sha ebf batchSize chunkSize chunkOverlap
          db f).1.chunks.filter
        (fun c => c.file_id ==
          (upsert_file db f.path f.mtime f.size (sha f.content)).2) =
        chunkRowsFor (upsert_file db f.path f.mtime f.size (sha f.content)).2
          (chunk_text f.content chunkSize chunkOverlap)
          (gather_embeds ebf batchSize
            ((chunk_text f.content chunkSize chunkOverlap).map
              (fun c => c.2.2))) ∧
      fingerprint_ok sha
        (process_file sha ebf batchSize chunkSize chunkOverlap db f).1 f =
        true ∧
      (process_file sha ebf batchSize chunkSize chunkOverlap db f).2 =
        (1, (chunk_text f.content chunkSize chunkOverlap).length)) := by
  constructor
  · intro hne
    by_cases h1 : fingerprint_ok sha db f = true
    · exact process_file_skip sha ebf batchSize chunkSize chunkOverlap db f h1
    · have h1' : fingerprint_ok sha db f = false := by simpa using h1
      by_cases h2 : (chunk_text f.content chunkSize chunkOverlap).isEmpty = true
      · simp [process_file, h1', h2]
      · by_cases h3 : (gather_embeds ebf batchSize
            ((chunk_text f.content chunkSize chunkOverlap).map
              (fun c => c.2.2))).isEmpty = true
        · simp [process_file, h1', h2, h3]
        · simp [process_file, h1', h2, h3, hne]
  · intro h1 h2 h3 h4
    have hcommit := process_file_commit sha ebf batchSize chunkSize
      chunkOverlap db f h1 h2 h3 h4
    have houtcome : indexOutcome ebf batchSize chunkSize chunkOverlap f
        = true := by
      simp [indexOutcome, List.isEmpty_iff, h2, h3, h4]
    refine ⟨?_, process_file_post sha ebf batchSize chunkSize chunkOverlap
      db f houtcome, ?_⟩
    · rw [hcommit]
      have hchunks : (insert_chunks
          (delete_chunks_for_file
            (upsert_file db f.path f.mtime f.size (sha f.content)).1
            (upsert_file db f.path f.mtime f.size (sha f.content)).2)
          (upsert_file db f.path f.mtime f.size (sha f.content)).2
          (chunk_text f.content chunkSize chunkOverlap)
          (gather_embeds ebf batchSize
            ((chunk_text f.content chunkSize chunkOverlap).map
              (fun c => c.2.2)))).chunks =
          db.chunks.filter (fun c => c.file_id !=
            (upsert_file db f.path f.mtime f.size (sha f.content)).2) ++
          chunkRowsFor (upsert_file db f.path f.mtime f.size (sha f.content)).2
            (chunk_text f.content chunkSize chunkOverlap)
            (gather_embeds ebf batchSize
              ((chunk_text f.content chunkSize chunkOverlap).map
                (fun c => c.2.2))) := by
        unfold insert_chunks delete_chunks_for_file
        rw [upsert_file_chunks]
      rw [hchunks, List.filter_append]
      have hold : (db.chunks.filter (fun c => c.file_id !=
          (upsert_file db f.path f.mtime f.size (sha f.content)).2)).filter
          (fun c => c.file_id ==
            (upsert_file db f.path f.mtime f.size (sha f.content)).2) = [] := by
        apply List.filter_eq_nil_iff.mpr
        intro a ha
        have := (List.mem_filter.mp ha).2
        simp only [bne_iff_ne, ne_eq] at this
        simp [this]
      have hnew : (chunkRowsFor
          (upsert_file db f.path f.mtime f.size (sha f.content)).2
          (chunk_text f.content chunkSize chunkOverlap)
          (gather_embeds ebf batchSize
            ((chunk_text f.content chunkSize chunkOverlap).map
              (fun c => c.2.2)))).filter
          (fun c => c.file_id ==
            (upsert_file db f.path f.mtime f.size (sha f.content)).2) =
          chunkRowsFor (upsert_file db f.path f.mtime f.size (sha f.content)).2
            (chunk_text f.content chunkSize chunkOverlap)
            (gather_embeds ebf batchSize
              ((chunk_text f.content chunkSize chunkOverlap).map
                (fun c => c.2.2))) := by
        apply List.filter_eq_self.mpr
        intro a ha
        unfold chunkRowsFor at ha
        obtain ⟨ke, _, rfl⟩ := List.mem_map.mp ha
        simp
      rw [hold, hnew, List.nil_append]
    · rw [hcommit]

/-- C5 witness: file "abcd" chunks into "ab" and "cd" (size 2, overlap 0);
with batch size 1 and an embedder that fails on the batch ["cd"], only one
vector is gathered for two chunks, and the per-file transaction leaves the
stale fingerprint row and old chunk row untouched with nothing counted.
With a total embedder instead, the commit stores the file's new
fingerprint. -/
theorem process_file_atomic_witness :
    process_file (fun _ => "new")
      (fun b => if b = [['c', 'd']] then [] else b.map (fun _ => [(1 : ℚ)]))
      1 2 0
      ⟨[⟨0, "a.txt", 1, 4, "old"⟩], [⟨0, 0, 0, 4, ['x'], [2]⟩], 1⟩
      ⟨"a.txt", 5, 4, ['a', 'b', 'c', 'd']⟩ =
      (⟨[⟨0, "a.txt", 1, 4, "old"⟩], [⟨0, 0, 0, 4, ['x'], [2]⟩], 1⟩, 0, 0) ∧
    fingerprint_ok (fun _ => "h")
      (process_file (fun _ => "h") (fun ts => ts.map (fun _ => [(1 : ℚ)]))
        96 2 0
        ⟨[⟨0, "a.txt", 1, 4, "old"⟩], [⟨0, 0, 0, 4, ['x'], [2]⟩], 1⟩
        ⟨"a.txt", 5, 4, ['a', 'b', 'c', 'd']⟩).1
      ⟨"a.txt", 5, 4, ['a', 'b', 'c', 'd']⟩ = true :=
  ⟨(process_file_atomic _ _ 1 2 0 _ _).1
      (by rw [chunk_text_eq_fuel]; decide),
   ((process_file_atomic _ _ 96 2 0 _ _).2 (by decide)
      (by rw [chunk_text_eq_fuel]; decide)
      (by rw [chunk_text_eq_fuel]; decide)
      (by rw [chunk_text_eq_fuel]; decide)).2.1⟩
